import Mathlib

/-!
Verification development for the ceresdb write path, shard cache and id
allocator.  The definitions below are shallow embeddings of the Rust
sources under `analytic_engine/src/instance/write.rs`,
`common_util/src/id_allocator.rs` and `cluster/src/cluster_impl.rs`.
Encoded rows (`Vec<u8>` byte strings) are modelled as `List Nat`.
-/

namespace Ceres

/-! ### WriteRowGroupSplitter (analytic_engine/src/instance/write.rs) -/

/-- Total byte size of a batch of encoded rows. -/
def batchBytes (b : List (List Nat)) : Nat := (b.map List.length).sum

/-- The loop body of `WriteRowGroupSplitter::compute_batches`: walk the rows
accumulating `current_batch_size`; when it reaches `max_bytes_per_batch`,
record the end index `row_idx + 1` and reset; after the walk, if the residue
is positive, record the total number of rows. -/
def computeBatchesAux (maxB : Nat) : List (List Nat) → Nat → Nat → List Nat
  | [], idx, cur => if cur > 0 then [idx] else []
  | r :: rest, idx, cur =>
    if cur + r.length ≥ maxB then (idx + 1) :: computeBatchesAux maxB rest (idx + 1) 0
    else computeBatchesAux maxB rest (idx + 1) (cur + r.length)

/-- `WriteRowGroupSplitter::compute_batches`. -/
def compute_batches (maxB : Nat) (encoded_rows : List (List Nat)) : List Nat :=
  computeBatchesAux maxB encoded_rows 0 0

/-- The construction of `row_group_batches` in `WriteRowGroupSplitter::split`:
half-open ranges between consecutive end indexes, starting at 0. -/
def buildRanges : Nat → List Nat → List (Nat × Nat)
  | _, [] => []
  | prev, e :: es => (prev, e) :: buildRanges e es

/-- The distribution loop of `WriteRowGroupSplitter::split`: move each encoded
row into `encoded_batches[current_batch_idx]`, advancing `current_batch_idx`
when `row_idx` reaches the current end index.  The Rust code indexes
`end_row_indexes[current_batch_idx]` and `encoded_batches[current_batch_idx]`
with unchecked `Vec` indexing; an out-of-bounds access panics, modelled as
`none`. -/
def distributeAux (ends : List Nat) :
    List (List Nat) → Nat → Nat → List (List (List Nat)) → Option (List (List (List Nat)))
  | [], _, _, batches => some batches
  | r :: rest, idx, cbi, batches =>
    match ends.get? cbi with
    | none => none
    | some e =>
      let cbi' := if idx ≥ e then cbi + 1 else cbi
      match batches.get? cbi' with
      | none => none
      | some b => distributeAux ends rest (idx + 1) cbi' (batches.set cbi' (b ++ [r]))

/-- Result of `WriteRowGroupSplitter::split`; a `RowGroupSlicer` is modelled
as its half-open index range over the originating row group. -/
inductive SplitResult where
  | Integrate (encoded_rows : List (List Nat)) (row_group : Nat × Nat)
  | Splitted (encoded_batches : List (List (List Nat))) (row_group_batches : List (Nat × Nat))
deriving DecidableEq

/-- `WriteRowGroupSplitter::split`; `numRows` is the row count of the
originating `RowGroup`.  `none` models a Rust panic. -/
def split (maxB : Nat) (encoded_rows : List (List Nat)) (numRows : Nat) : Option SplitResult :=
  let ends := compute_batches maxB encoded_rows
  if ends.length ≤ 1 then some (.Integrate encoded_rows (0, numRows))
  else
    match distributeAux ends encoded_rows 0 0 (List.replicate ends.length []) with
    | none => none
    | some encoded_batches => some (.Splitted encoded_batches (buildRanges 0 ends))

/-- The list of batches described by a list of end indexes: the segments of
`rows` between consecutive end indexes (`prev` is the previous end). -/
def segments : List (List Nat) → Nat → List Nat → List (List (List Nat))
  | _, _, [] => []
  | rows, prev, e :: es => rows.take (e - prev) :: segments (rows.drop (e - prev)) e es

/-- A batch is within budget: its total size is below the threshold, or it
exceeds the threshold by at most its final row (everything before the final
row is below the threshold, or the batch is that single row). -/
def GoodBatch (maxB : Nat) (B : List (List Nat)) : Prop :=
  batchBytes B < maxB ∨ ∃ B' r, B = B' ++ [r] ∧ (batchBytes B' < maxB ∨ B' = [])

/-- Generalisation of `GoodBatch` to a batch whose bytes sit on top of an
already accumulated size `cur`. -/
def FirstGood (maxB cur : Nat) (B : List (List Nat)) : Prop :=
  cur + batchBytes B < maxB ∨
    ∃ B' r, B = B' ++ [r] ∧ (cur + batchBytes B' < maxB ∨ (B' = [] ∧ cur = 0))

/-- All segments are good; the first one is measured on top of `cur`. -/
def GoodSeg (maxB cur : Nat) : List (List (List Nat)) → Prop
  | [] => True
  | F :: rest => FirstGood maxB cur F ∧ ∀ B ∈ rest, GoodBatch maxB B

/-! ### IdAllocator (common_util/src/id_allocator.rs) -/

def U64 : Nat := 2 ^ 64

/-- The state of `id_allocator::Inner`; `u64` fields are naturals reduced
modulo `2 ^ 64` wherever arithmetic may wrap. -/
structure IdInner where
  last_id : Nat
  max_id : Nat
  alloc_step : Nat
deriving DecidableEq

/-- `Inner::alloc_id`.  The outcome of `persist_next_max_id` is the oracle
`persistOk`; the triple is (returned result, state after the call, the
arguments `persist_next_max_id` was invoked with). -/
def alloc_id (s : IdInner) (persistOk : Nat → Bool) :
    Except Unit Nat × IdInner × List Nat :=
  if s.last_id < s.max_id then
    (.ok ((s.last_id + 1) % U64), { s with last_id := (s.last_id + 1) % U64 }, [])
  else
    let next_max_id := (s.last_id + s.alloc_step) % U64
    if persistOk next_max_id then
      (.ok ((s.last_id + 1) % U64),
        ⟨(s.last_id + 1) % U64, next_max_id, s.alloc_step⟩, [next_max_id])
    else
      (.error (), s, [next_max_id])

/-- A sequence of `alloc_id` calls; each element of the list is one call's
(result, persist invocations). -/
def runAlloc (persistOk : Nat → Bool) (s : IdInner) :
    Nat → List (Except Unit Nat × List Nat) × IdInner
  | 0 => ([], s)
  | n + 1 =>
    let c := alloc_id s persistOk
    let rest := runAlloc persistOk c.2.1 n
    ((c.1, c.2.2) :: rest.1, rest.2)

/-! ### ClusterImpl (cluster/src/cluster_impl.rs) -/

/-- `ClusterImpl::shard_lock_key_prefix`.  `root_path.starts_with('/')` is
rendered as the first character of the string being `'/'`. -/
def shardLockKeyPrefix (root_path cluster_name : String) : Except String String :=
  if root_path.data.head? ≠ some '/' then
    .error "root_path is required to start with /"
  else if cluster_name.isEmpty then
    .error "cluster_name is required non-empty"
  else
    .ok (root_path ++ "/" ++ cluster_name ++ "/" ++ "shards")

structure ShardInfo where
  id : Nat
  version : Nat
deriving DecidableEq

structure TablesOfShard where
  shard_info : ShardInfo
  tables : List Nat
deriving DecidableEq

inductive ClusterError where
  | OpenShard (shard_id : Nat)
  | OpenShardWithCause (shard_id : Nat)
deriving DecidableEq

/-- `ShardTablesCache`: the versioned shard id → tables-of-shard map. -/
def ShardCache := Nat → Option TablesOfShard

/-- `ShardTablesCache::insert`: replace any prior entry of that shard id. -/
def cacheInsert (c : ShardCache) (t : TablesOfShard) : ShardCache :=
  fun i => if i = t.shard_info.id then some t else c i

/-- `Inner::open_shard`.  The meta-service reply to
`get_tables_of_shards([info.id])` is the oracle `meta` (its
`tables_by_shard` map as an association list, or a transport error). -/
def open_shard (cache : ShardCache) (meta : Except Unit (List (Nat × TablesOfShard)))
    (info : ShardInfo) : Except ClusterError TablesOfShard × ShardCache :=
  let fetch : Except ClusterError TablesOfShard × ShardCache :=
    match meta with
    | .error _ => (.error (.OpenShardWithCause info.id), cache)
    | .ok tables_by_shard =>
      if tables_by_shard.length = 1 then
        match tables_by_shard.lookup info.id with
        | some tos => (.ok tos, cacheInsert cache tos)
        | none => (.error (.OpenShard info.id), cache)
      else (.error (.OpenShard info.id), cache)
  match cache info.id with
  | some tos =>
    if tos.shard_info.version = info.version then (.ok tos, cache)
    else if tos.shard_info.version < info.version then fetch
    else (.error (.OpenShard info.id), cache)
  | none => fetch

/-! ### Write path (analytic_engine/src/instance/write.rs) -/

/-- Max rows in a write request, must less than `u32::MAX`. -/
def MAX_ROWS_TO_WRITE : Nat := 10000000

def U32 : Nat := 2 ^ 32

/-- A row is its timestamp plus an abstract payload. -/
structure Row where
  ts : Int
  payload : Nat
deriving DecidableEq

/-- `memtable::key::KeySequence`: (WAL sequence number, intra-batch index). -/
structure KeySequence where
  sequence : Nat
  row_index : Nat
deriving DecidableEq

/-- One mutable memtable: its inserted entries and last-sequence watermark. -/
structure MemTable where
  entries : List (KeySequence × Row)
  lastSeq : Nat
deriving DecidableEq

/-- The collaborators of the write path as oracles: `expired` is
`TableData::is_expired`, `windowOf` gives the time window (memtable id)
covering a timestamp (`find_or_create_mutable` routing, with
`accept_timestamp` holding exactly on the window's own timestamps), `putOk`
decides whether `MemTable::put` succeeds, `walSeq` gives the sequence number
assigned by the n-th WAL append (`none` = append failure), `encodeRow` is
the per-row WAL encoding against the table schema. -/
structure WriteEnv where
  expired : Int → Bool
  windowOf : Int → Nat
  putOk : KeySequence → Row → Bool
  walSeq : Nat → Option Nat
  encodeRow : Row → List Nat
  maxBytesPerWriteBatch : Option Nat
  dropped : Bool
  schemaCompatible : Bool

/-- The mutable state `Writer::write` acts on: the memtables of the table
(indexed by window id), `TableData::last_sequence`, and the WAL (number of
append attempts, log of successful appends). -/
structure TableState where
  store : Nat → MemTable
  lastSequence : Nat
  walAttempts : Nat
  walLog : List (Nat × List (List Nat))

inductive WriteError where
  | TooManyRows
  | WriteDroppedTable
  | IncompatSchema
  | WriteLogBatch
  | WriteMemTable
deriving DecidableEq

/-- `MemTable::put`: append an entry to the memtable of window `w`. -/
def mtPut (store : Nat → MemTable) (w : Nat) (k : KeySequence) (r : Row) :
    Nat → MemTable :=
  fun w' => if w' = w then { store w with entries := (store w).entries ++ [(k, r)] }
  else store w'

/-- `MemTable::set_last_sequence`. -/
def mtSetLastSeq (store : Nat → MemTable) (w : Nat) (s : Nat) : Nat → MemTable :=
  fun w' => if w' = w then { store w with lastSeq := s } else store w'

/-- The memtable-rotation step of the loop: reuse the cached
`last_mutable_mem` when it accepts the timestamp (its window `w0` is the
window `w` of the timestamp), otherwise `find_or_create_mutable` and push
onto `wrote_memtables`. -/
def rotateTo (w : Nat) (wrote : List Nat) : Option Nat → Nat × List Nat
  | some w0 => if w = w0 then (w0, wrote) else (w, wrote ++ [w])
  | none => (w, wrote ++ [w])

/-- The row loop of `MemTableWriter::write`: `i` is the position within the
slice, `wrote` the ids pushed to `wrote_memtables`, `lastMut` the cached
`last_mutable_mem`.  Expired rows are skipped; otherwise the row is put
under `KeySequence(sequence, i as u32)` into the memtable covering its
timestamp (reusing the cached one when it accepts the timestamp). -/
def memWriteLoop (env : WriteEnv) (sequence : Nat) :
    List Row → Nat → (Nat → MemTable) → List Nat → Option Nat →
      Option WriteError × (Nat → MemTable) × List Nat
  | [], _, store, wrote, _ => (none, store, wrote)
  | r :: rest, i, store, wrote, lastMut =>
    if env.expired r.ts then memWriteLoop env sequence rest (i + 1) store wrote lastMut
    else
      let rot := rotateTo (env.windowOf r.ts) wrote lastMut
      if env.putOk ⟨sequence, i % U32⟩ r then
        memWriteLoop env sequence rest (i + 1) (mtPut store rot.1 ⟨sequence, i % U32⟩ r)
          rot.2 (some rot.1)
      else (some .WriteMemTable, store, rot.2)

/-- `MemTableWriter::write`: empty slice returns success immediately; after
the row loop, `set_last_sequence(sequence)` on every wrote memtable. -/
def mem_table_write (env : WriteEnv) (sequence : Nat) (row_group : List Row)
    (store : Nat → MemTable) : Option WriteError × (Nat → MemTable) :=
  if row_group.isEmpty then (none, store)
  else
    match memWriteLoop env sequence row_group 0 store [] none with
    | (some e, store', _) => (some e, store')
    | (none, store', wrote) =>
      (none, wrote.foldl (fun st w => mtSetLastSeq st w sequence) store')

/-- `Writer::write_to_wal`: append to the WAL, returning the assigned
sequence number. -/
def write_to_wal (env : WriteEnv) (st : TableState) (encoded_rows : List (List Nat)) :
    Option Nat × TableState :=
  match env.walSeq st.walAttempts with
  | none => (none, { st with walAttempts := st.walAttempts + 1 })
  | some s =>
    (some s, { st with walAttempts := st.walAttempts + 1,
                       walLog := st.walLog ++ [(s, encoded_rows)] })

/-- The rows a `RowGroupSlicer` with range `[a, b)` denotes. -/
def sliceRange (rows : List Row) (a b : Nat) : List Row := (rows.drop a).take (b - a)

/-- `Writer::write_table_row_group`: WAL append, memtable write, then the
warn-only sequence-gap check, then `table_data.set_last_sequence(sequence)`. -/
def write_table_row_group (env : WriteEnv) (st : TableState) (row_group : List Row)
    (encoded_rows : List (List Nat)) : Option WriteError × TableState :=
  match write_to_wal env st encoded_rows with
  | (none, st') => (some .WriteLogBatch, st')
  | (some sequence, st') =>
    match mem_table_write env sequence row_group st'.store with
    | (some e, store') => (some e, { st' with store := store' })
    | (none, store') => (none, { st' with store := store', lastSequence := sequence })

/-- `Writer::maybe_split_write_request`. -/
def maybe_split_write_request (env : WriteEnv) (encoded_rows : List (List Nat))
    (numRows : Nat) : Option SplitResult :=
  match env.maxBytesPerWriteBatch with
  | none => some (.Integrate encoded_rows (0, numRows))
  | some maxB => split maxB encoded_rows numRows

/-- The per-batch loop of `Writer::write` in the `Splitted` arm. -/
def writeBatches (env : WriteEnv) (rows : List Row) :
    List (List (List Nat) × (Nat × Nat)) → TableState → Option WriteError × TableState
  | [], st => (none, st)
  | (enc, range) :: rest, st =>
    match write_table_row_group env st (sliceRange rows range.1 range.2) enc with
    | (some e, st') => (some e, st')
    | (none, st') => writeBatches env rows rest st'

inductive WriteOutcome where
  | panicked
  | failed (e : WriteError)
  | ok (rows_written : Nat)
deriving DecidableEq

/-- `Writer::write`: validate, preprocess (dropped-table and schema
compatibility checks), encode, optional split, then the per-batch loop. -/
def writer_write (env : WriteEnv) (st : TableState) (rows : List Row) :
    WriteOutcome × TableState :=
  if ¬ rows.length < MAX_ROWS_TO_WRITE then (.failed .TooManyRows, st)
  else if env.dropped then (.failed .WriteDroppedTable, st)
  else if ¬ env.schemaCompatible then (.failed .IncompatSchema, st)
  else
    let encoded_rows := rows.map env.encodeRow
    match maybe_split_write_request env encoded_rows rows.length with
    | none => (.panicked, st)
    | some (.Integrate enc range) =>
      match write_table_row_group env st (sliceRange rows range.1 range.2) enc with
      | (some e, st') => (.failed e, st')
      | (none, st') => (.ok rows.length, st')
    | some (.Splitted encBatches ranges) =>
      match writeBatches env rows (encBatches.zip ranges) st with
      | (some e, st') => (.failed e, st')
      | (none, st') => (.ok rows.length, st')

/-- The entries `MemTableWriter::write` is expected to add to the memtable
of window `w`: one per non-expired row routed to `w`, keyed by the row's
position in the slice. -/
def addedRows (env : WriteEnv) (sequence w : Nat) : Nat → List Row → List (KeySequence × Row)
  | _, [] => []
  | i, r :: rest =>
    (if env.expired r.ts = false ∧ env.windowOf r.ts = w then
      [((⟨sequence, i % U32⟩ : KeySequence), r)] else [])
      ++ addedRows env sequence w (i + 1) rest

/-! ### Concrete fixtures used by the witnesses -/

/-- An empty table state. -/
def emptyState : TableState := ⟨fun _ => ⟨[], 0⟩, 0, 0, []⟩

/-- A benign environment: nothing expires, one window, every put and WAL
append succeeds (the WAL assigns sequence `n + 5` to the n-th append, so the
first assigned sequence is not `last_sequence + 1`: a sequence gap). -/
def envOk : WriteEnv :=
  ⟨fun _ => false, fun _ => 0, fun _ _ => true, fun n => some (n + 5),
    fun r => [r.payload], none, false, true⟩

/-- As `envOk`, but splitting at one byte per batch and the WAL failing from
its second append on. -/
def envWalFail : WriteEnv :=
  ⟨fun _ => false, fun _ => 0, fun _ _ => true, fun n => if n = 0 then some 10 else none,
    fun r => [r.payload], some 1, false, true⟩

/-- An environment with an expiry threshold and two windows. -/
def envWindows : WriteEnv :=
  ⟨fun t => decide (t < 0), fun t => if t < 3 then 0 else 1, fun _ _ => true,
    fun n => some (n + 1), fun r => [r.payload], none, false, true⟩

/-- Three concrete rows. -/
def rows3 : List Row := [⟨0, 1⟩, ⟨5, 2⟩, ⟨0, 3⟩]

/-- Three rows of which the first is expired under `envWindows`. -/
def rowsExp : List Row := [⟨-1, 1⟩, ⟨0, 2⟩, ⟨5, 3⟩]

/-- A cache holding shard 7 at version 3. -/
def cache7 : ShardCache := fun i => if i = 7 then some ⟨⟨7, 3⟩, [1, 2]⟩ else none

theorem firstGood_zero {maxB : Nat} {B : List (List Nat)} :
    FirstGood maxB 0 B ↔ GoodBatch maxB B := by
  unfold FirstGood GoodBatch
  simp

theorem goodSeg_forall {maxB : Nat} {L : List (List (List Nat))}
    (h : GoodSeg maxB 0 L) : ∀ B ∈ L, GoodBatch maxB B := by
  cases L with
  | nil => intro B hB; cases hB
  | cons F rest =>
    intro B hB
    rcases List.mem_cons.mp hB with rfl | hB
    · exact firstGood_zero.mp h.1
    · exact h.2 _ hB

theorem batchBytes_nil : batchBytes [] = 0 := rfl

theorem batchBytes_cons (r : List Nat) (B : List (List Nat)) :
    batchBytes (r :: B) = r.length + batchBytes B := by
  simp [batchBytes]

/-- Every end index produced by the loop is at least the starting index. -/
theorem computeBatchesAux_lb (maxB : Nat) :
    ∀ (rows : List (List Nat)) (idx cur e : Nat),
      e ∈ computeBatchesAux maxB rows idx cur → idx ≤ e := by
  intro rows
  induction rows with
  | nil =>
    intro idx cur e he
    simp only [computeBatchesAux] at he
    split at he
    · simp at he; omega
    · cases he
  | cons r rest ih =>
    intro idx cur e he
    simp only [computeBatchesAux] at he
    split at he
    · simp only [List.mem_cons] at he
      rcases he with rfl | he
      · omega
      · have := ih (idx + 1) 0 e he; omega
    · have := ih (idx + 1) (cur + r.length) e he; omega

theorem firstGood_cons {maxB cur : Nat} {r : List Nat} {F : List (List Nat)}
    (hcur : cur + r.length < maxB)
    (h : FirstGood maxB (cur + r.length) F) : FirstGood maxB cur (r :: F) := by
  rcases h with h | ⟨F', x, rfl, h⟩
  · left
    rw [batchBytes_cons]; omega
  · right
    refine ⟨r :: F', x, rfl, ?_⟩
    left
    rw [batchBytes_cons]
    rcases h with h | ⟨rfl, hc⟩
    · omega
    · rw [batchBytes_nil]; omega

/-- Main invariant: starting the loop with accumulated size `cur` (zero or
strictly below the budget), every batch delimited by the produced end
indexes is within budget. -/
theorem computeBatchesAux_goodSeg (maxB : Nat) :
    ∀ (rows : List (List Nat)) (idx cur : Nat), cur = 0 ∨ cur < maxB →
      GoodSeg maxB cur (segments rows idx (computeBatchesAux maxB rows idx cur)) := by
  intro rows
  induction rows with
  | nil =>
    intro idx cur hinv
    simp only [computeBatchesAux]
    split
    · rename_i hcur
      have hlt : cur < maxB := by omega
      simp only [segments, List.take_nil, List.drop_nil, GoodSeg]
      exact ⟨Or.inl (by rw [batchBytes_nil]; omega), by intro B hB; cases hB⟩
    · simp [segments, GoodSeg]
  | cons r rest ih =>
    intro idx cur hinv
    simp only [computeBatchesAux]
    split
    · -- batch emitted at this row
      simp only [segments, Nat.add_sub_cancel_left, List.take_succ_cons, List.take_zero,
        List.drop_succ_cons, List.drop_zero]
      refine ⟨?_, ?_⟩
      · right
        refine ⟨[], r, rfl, ?_⟩
        rcases hinv with h | h
        · exact Or.inr ⟨rfl, h⟩
        · left; rw [batchBytes_nil]; omega
      · exact goodSeg_forall (ih (idx + 1) 0 (Or.inl rfl))
    · -- row absorbed into the current batch
      rename_i hemit
      have hcur' : cur + r.length < maxB := by omega
      have ihres := ih (idx + 1) (cur + r.length) (Or.inr hcur')
      cases hres : computeBatchesAux maxB rest (idx + 1) (cur + r.length) with
      | nil => simp [segments, GoodSeg]
      | cons e es =>
        rw [hres] at ihres
        have hle : idx + 1 ≤ e := computeBatchesAux_lb maxB rest (idx + 1) (cur + r.length) e
          (by rw [hres]; exact List.mem_cons_self _ _)
        have hsub : e - idx = (e - (idx + 1)) + 1 := by omega
        simp only [segments, hsub, List.take_succ_cons, List.drop_succ_cons]
        simp only [segments] at ihres
        exact ⟨firstGood_cons hcur' ihres.1, ihres.2⟩

/-- C1: the claim says `WriteRowGroupSplitter::split` partitions every input,
zero-size trailing rows included.  On encoded rows of sizes `[10, 10, 0]`
with threshold 2 the code instead panics: `compute_batches` returns end
indexes `[1, 2]` (the trailing zero-size row leaves no residue, so no final
end index is pushed), and the distribution loop of `split` then advances
`current_batch_idx` to 2 at the third row and indexes `encoded_batches[2]`,
out of bounds for its 2 elements.  The panic is modelled as `none`; the
third row is covered by no slicer and no batch. -/
theorem split_panics_on_trailing_zero_size_row :
    split 2 [List.replicate 10 0, List.replicate 10 0, []] 3 = none ∧
      compute_batches 2 [List.replicate 10 0, List.replicate 10 0, []] = [1, 2] := by
  decide

/-- With a zero threshold the computed end indexes cut every row into its own
single-row batch. -/
theorem segments_computeBatches_zero :
    ∀ (rows : List (List Nat)) (idx : Nat),
      segments rows idx (computeBatchesAux 0 rows idx 0) = rows.map (fun r => [r]) := by
  intro rows
  induction rows with
  | nil => intro idx; simp [computeBatchesAux, segments]
  | cons r rest ih =>
    intro idx
    simp only [computeBatchesAux, Nat.zero_le, ge_iff_le, if_pos]
    simp only [segments, Nat.add_sub_cancel_left, List.take_succ_cons, List.take_zero,
      List.drop_succ_cons, List.drop_zero, List.map_cons]
    exact congrArg _ (ih (idx + 1))

end Ceres

namespace Ceres

/-- C2: every batch delimited by `compute_batches` has cumulative byte size
either strictly below the threshold `max_bytes_per_batch`, or exceeding it
by at most one row (everything before its final row is below the threshold,
or the batch is that single row); and with threshold 0 every row, zero-size
rows included, becomes its own single-row batch. -/
theorem compute_batches_within_budget (maxB : Nat) (rows : List (List Nat)) :
    (∀ B ∈ segments rows 0 (compute_batches maxB rows), GoodBatch maxB B) ∧
      (maxB = 0 → segments rows 0 (compute_batches 0 rows) = rows.map fun r => [r]) := by
  constructor
  · exact goodSeg_forall (computeBatchesAux_goodSeg maxB rows 0 0 (Or.inl rfl))
  · intro _
    exact segments_computeBatches_zero rows 0

/-- Witness for C2 at threshold 2, row sizes `[1, 2, 3]` (first batch
`[1, 2]`), and at threshold 0, row sizes `[1, 2]`. -/
theorem compute_batches_within_budget_witness :
    GoodBatch 2 [[0], [0, 0]] ∧
      segments [[0], [0, 0]] 0 (compute_batches 0 [[0], [0, 0]]) =
        [[0], [0, 0]].map fun r => [r] :=
  ⟨(compute_batches_within_budget 2 [[0], [0, 0], [0, 0, 0]]).1 _ (by decide),
    (compute_batches_within_budget 0 [[0], [0, 0]]).2 rfl⟩

/-- C3: `alloc_id` with `last_id < max_id` increments and returns `last_id`
without invoking persist; otherwise it computes `next_max = last_id + step`,
invokes `persist(next_max)`, and only on success installs `max_id =
next_max`, increments and returns `last_id`; on persist failure the state is
unchanged and the error is surfaced. -/
theorem alloc_id_spec (s : IdInner) (persistOk : Nat → Bool)
    (hov : s.last_id + s.alloc_step < U64) (hstep : 0 < s.alloc_step) :
    (s.last_id < s.max_id →
      alloc_id s persistOk =
        (.ok (s.last_id + 1), { s with last_id := s.last_id + 1 }, [])) ∧
    (s.max_id ≤ s.last_id → persistOk (s.last_id + s.alloc_step) = true →
      alloc_id s persistOk =
        (.ok (s.last_id + 1), ⟨s.last_id + 1, s.last_id + s.alloc_step, s.alloc_step⟩,
          [s.last_id + s.alloc_step])) ∧
    (s.max_id ≤ s.last_id → persistOk (s.last_id + s.alloc_step) = false →
      alloc_id s persistOk = (.error (), s, [s.last_id + s.alloc_step])) := by
  have h1 : (s.last_id + 1) % U64 = s.last_id + 1 := Nat.mod_eq_of_lt (by omega)
  have h2 : (s.last_id + s.alloc_step) % U64 = s.last_id + s.alloc_step :=
    Nat.mod_eq_of_lt hov
  refine ⟨?_, ?_, ?_⟩
  · intro h
    simp [alloc_id, h, h1]
  · intro h hp
    simp [alloc_id, Nat.not_lt.mpr h, h1, h2, hp]
  · intro h hp
    simp [alloc_id, Nat.not_lt.mpr h, h2, hp]

/-- Witness for C3: a cached allocation on state `(5, 10, 100)`. -/
theorem alloc_id_spec_witness :
    alloc_id ⟨5, 10, 100⟩ (fun _ => true) = (.ok 6, ⟨6, 10, 100⟩, []) :=
  (alloc_id_spec ⟨5, 10, 100⟩ (fun _ => true) (by decide) (by decide)).1 (by decide)

/-- C4 counterexample: the claim quantifies over every initial `(l0, m0,
step)`, but on `IdAllocator(0, 200, 100)` the first 100 = step successful
allocations return 1..=100 and invoke persist zero times, not exactly once
per step allocations. -/
theorem runAlloc_no_persist_in_first_step_allocs :
    (runAlloc (fun _ => true) ⟨0, 200, 100⟩ 100).1.map Prod.snd =
      List.replicate 100 ([] : List Nat) ∧
    (runAlloc (fun _ => true) ⟨0, 200, 100⟩ 100).1.map Prod.fst =
      (List.range 100).map (fun k => (.ok (k + 1) : Except Unit Nat)) :=
  ⟨by decide, by rfl⟩

end Ceres

namespace Ceres

/-- Unfolding lemma: one step of `runAlloc`. -/
theorem runAlloc_succ (p : Nat → Bool) (s : IdInner) (n : Nat) :
    runAlloc p s (n + 1) =
      (((alloc_id s p).1, (alloc_id s p).2.2) :: (runAlloc p (alloc_id s p).2.1 n).1,
        (runAlloc p (alloc_id s p).2.1 n).2) := rfl

theorem alloc_id_true_lt {l m step : Nat} (h : l < m) (hov : l + 1 < U64) :
    alloc_id ⟨l, m, step⟩ (fun _ => true) = (.ok (l + 1), ⟨l + 1, m, step⟩, []) := by
  simp [alloc_id, h, Nat.mod_eq_of_lt hov]

theorem alloc_id_true_eq {l m step : Nat} (h : ¬ l < m) (hov1 : l + 1 < U64)
    (hov2 : l + step < U64) :
    alloc_id ⟨l, m, step⟩ (fun _ => true) =
      (.ok (l + 1), ⟨l + 1, l + step, step⟩, [l + step]) := by
  simp [alloc_id, h, Nat.mod_eq_of_lt hov1, Nat.mod_eq_of_lt hov2]

/-- C4 (amended): for any `IdAllocator(l0, m0, step)` with `l0 ≤ m0` and all
persists succeeding, the k-th allocation (0-based) returns `l0 + k + 1` —
the ids are exactly `l0+1, l0+2, …`, strictly monotone — and persist is
invoked exactly at the allocations where the initially cached range of
`m0 - l0` ids is exhausted and a whole number of `step` further allocations
has passed (so exactly once per `step` allocations from allocation
`m0 - l0 + 1` on; for `m0 = l0` at allocations 1, step+1, 2·step+1, …),
each time with the previous ceiling plus `step`, namely `l0 + k + step`. -/
theorem runAlloc_spec (step : Nat) (hstep : 0 < step) :
    ∀ (k n l m : Nat), l ≤ m → m + step * n < U64 → k < n →
      (runAlloc (fun _ => true) ⟨l, m, step⟩ n).1.get? k =
        some (.ok (l + k + 1),
          if m - l ≤ k ∧ (k - (m - l)) % step = 0 then [l + k + step] else []) := by
  intro k
  induction k with
  | zero =>
    intro n l m hlm hov hk
    obtain ⟨n', rfl⟩ : ∃ n', n = n' + 1 := ⟨n - 1, by omega⟩
    have hstep_le : step ≤ step * (n' + 1) := Nat.le_mul_of_pos_right step (Nat.succ_pos n')
    by_cases h : l < m
    · rw [runAlloc_succ, alloc_id_true_lt h (by omega)]
      simp only [List.get?_cons_zero]
      rw [if_neg (by omega)]
    · have hm : m = l := by omega
      subst hm
      rw [runAlloc_succ, alloc_id_true_eq h (by omega) (by omega)]
      simp only [List.get?_cons_zero]
      rw [if_pos ⟨by omega, by simp⟩]
      simp
  | succ k ih =>
    intro n l m hlm hov hk
    obtain ⟨n', rfl⟩ : ∃ n', n = n' + 1 := ⟨n - 1, by omega⟩
    have hk' : k < n' := by omega
    have hstep_le : step ≤ step * (n' + 1) := Nat.le_mul_of_pos_right step (Nat.succ_pos n')
    have hmul : step * n' ≤ step * (n' + 1) := Nat.mul_le_mul_left step (Nat.le_succ n')
    by_cases h : l < m
    · rw [runAlloc_succ, alloc_id_true_lt h (by omega)]
      simp only [List.get?_cons_succ]
      rw [ih n' (l + 1) m (by omega) (by omega) hk']
      have e1 : l + 1 + k + 1 = l + (k + 1) + 1 := by omega
      have e2 : l + 1 + k + step = l + (k + 1) + step := by omega
      have harg : k + 1 - (m - l) = k - (m - (l + 1)) := by omega
      have hiff : (m - (l + 1) ≤ k ∧ (k - (m - (l + 1))) % step = 0) ↔
          (m - l ≤ k + 1 ∧ (k + 1 - (m - l)) % step = 0) := by
        rw [harg]
        constructor
        · rintro ⟨h1, h2⟩
          exact ⟨by omega, h2⟩
        · rintro ⟨h1, h2⟩
          exact ⟨by omega, h2⟩
      rw [e1, e2, if_congr hiff rfl rfl]
    · have hm : m = l := by omega
      subst hm
      have hbound : m + step + step * n' < U64 := by
        have : step * (n' + 1) = step * n' + step := by ring
        omega
      rw [runAlloc_succ, alloc_id_true_eq h (by omega) (by omega)]
      simp only [List.get?_cons_succ]
      rw [ih n' (m + 1) (m + step) (by omega) hbound hk']
      have e1 : m + 1 + k + 1 = m + (k + 1) + 1 := by omega
      have e2 : m + 1 + k + step = m + (k + 1) + step := by omega
      have hsub : m + step - (m + 1) = step - 1 := by omega
      have hiff : (step - 1 ≤ k ∧ (k - (step - 1)) % step = 0) ↔
          (m - m ≤ k + 1 ∧ (k + 1 - (m - m)) % step = 0) := by
        rw [Nat.sub_self, Nat.sub_zero]
        constructor
        · rintro ⟨h1, h2⟩
          refine ⟨Nat.zero_le _, ?_⟩
          have e : k + 1 = (k - (step - 1)) + step := by omega
          rw [e, Nat.add_mod_right]
          exact h2
        · rintro ⟨-, h2⟩
          have hdvd : step ∣ (k + 1) := Nat.dvd_of_mod_eq_zero h2
          have hge : step ≤ k + 1 := Nat.le_of_dvd (Nat.succ_pos k) hdvd
          refine ⟨by omega, ?_⟩
          have e : k - (step - 1) = k + 1 - step := by omega
          rw [e]
          exact Nat.mod_eq_zero_of_dvd (Nat.dvd_sub' hdvd dvd_rfl)
      rw [e1, e2, hsub, if_congr hiff rfl rfl]

/-- Witness for C4 (amended) on `IdAllocator(0, 0, 100)`: allocation #101
(index 100) returns 101 and persists 200 = previous ceiling 100 + step. -/
theorem runAlloc_spec_witness :
    (runAlloc (fun _ => true) ⟨0, 0, 100⟩ 101).1.get? 100 = some (.ok 101, [200]) :=
  runAlloc_spec 100 (by decide) 100 101 0 0 (by decide) (by decide) (by decide)

end Ceres

namespace Ceres

/-- C8: `shard_lock_key_prefix(root, cluster)` returns exactly
`"{root}/{cluster}/shards"` when the root path starts with `'/'` and the
cluster name is non-empty, and an `InvalidArguments` error otherwise (so in
particular an empty root path, a root path without a leading slash, and an
empty cluster name each yield an error). -/
theorem shardLockKeyPrefix_spec (root_path cluster_name : String) :
    (shardLockKeyPrefix root_path cluster_name =
        .ok (root_path ++ "/" ++ cluster_name ++ "/" ++ "shards") ↔
      root_path.data.head? = some '/' ∧ ¬ cluster_name.isEmpty) ∧
    (¬ (root_path.data.head? = some '/' ∧ ¬ cluster_name.isEmpty) →
      ∃ msg, shardLockKeyPrefix root_path cluster_name = .error msg) := by
  by_cases h1 : root_path.data.head? = some '/'
  · by_cases h2 : cluster_name.isEmpty
    · constructor
      · simp [shardLockKeyPrefix, h1, h2]
      · intro _
        exact ⟨"cluster_name is required non-empty", by simp [shardLockKeyPrefix, h1, h2]⟩
    · constructor
      · simp [shardLockKeyPrefix, h1, h2]
      · intro hc
        exact absurd ⟨h1, h2⟩ hc
  · constructor
    · simp [shardLockKeyPrefix, h1]
    · intro _
      exact ⟨"root_path is required to start with /", by simp [shardLockKeyPrefix, h1]⟩

/-- Witness for C8: the concrete cases of the claim. -/
theorem shardLockKeyPrefix_spec_witness :
    shardLockKeyPrefix "/ceresdb" "defaultCluster" = .ok "/ceresdb/defaultCluster/shards" ∧
    (∃ m1, shardLockKeyPrefix "" "x" = .error m1) ∧
    (∃ m2, shardLockKeyPrefix "vvv" "x" = .error m2) ∧
    (∃ m3, shardLockKeyPrefix "/x" "" = .error m3) :=
  ⟨(shardLockKeyPrefix_spec "/ceresdb" "defaultCluster").1.mpr (by decide),
    (shardLockKeyPrefix_spec "" "x").2 (by decide),
    (shardLockKeyPrefix_spec "vvv" "x").2 (by decide),
    (shardLockKeyPrefix_spec "/x" "").2 (by decide)⟩

/-- C9: `open_shard` upsert semantics: a cached shard at the same version is
returned as-is without contacting the meta service (the result is the same
for every `meta` and the cache is unchanged); a cached shard at a greater
version yields an `OpenShard` error; on a cache miss or a higher requested
version the table list is fetched from the meta service: a transport error
surfaces, a reply without exactly one shard's tables is an error, and
otherwise the returned entry is inserted into the cache. -/
theorem open_shard_spec (cache : ShardCache)
    (meta : Except Unit (List (Nat × TablesOfShard))) (info : ShardInfo) :
    (∀ tos, cache info.id = some tos → tos.shard_info.version = info.version →
      open_shard cache meta info = (.ok tos, cache)) ∧
    (∀ tos, cache info.id = some tos → info.version < tos.shard_info.version →
      open_shard cache meta info = (.error (.OpenShard info.id), cache)) ∧
    ((cache info.id = none ∨
        ∃ tos, cache info.id = some tos ∧ tos.shard_info.version < info.version) →
      (meta = .error () →
        open_shard cache meta info = (.error (.OpenShardWithCause info.id), cache)) ∧
      (∀ m, meta = .ok m →
        (m.length ≠ 1 →
          open_shard cache meta info = (.error (.OpenShard info.id), cache)) ∧
        (m.length = 1 → ∀ tos, m.lookup info.id = some tos →
          open_shard cache meta info = (.ok tos, cacheInsert cache tos)) ∧
        (m.length = 1 → m.lookup info.id = none →
          open_shard cache meta info = (.error (.OpenShard info.id), cache)))) := by
  refine ⟨?_, ?_, ?_⟩
  · intro tos hc hv
    simp [open_shard, hc, hv]
  · intro tos hc hv
    have h1 : ¬ tos.shard_info.version = info.version := by omega
    have h2 : ¬ tos.shard_info.version < info.version := by omega
    simp [open_shard, hc, h1, h2]
  · intro hmiss
    have hfetch : ∀ (P : Except ClusterError TablesOfShard × ShardCache → Prop),
        (P (match meta with
          | .error _ => (.error (.OpenShardWithCause info.id), cache)
          | .ok tables_by_shard =>
            if tables_by_shard.length = 1 then
              match tables_by_shard.lookup info.id with
              | some tos => (.ok tos, cacheInsert cache tos)
              | none => (.error (.OpenShard info.id), cache)
            else (.error (.OpenShard info.id), cache))) →
        P (open_shard cache meta info) := by
      intro P hP
      rcases hmiss with hc | ⟨tos, hc, hv⟩
      · simpa [open_shard, hc] using hP
      · have h1 : ¬ tos.shard_info.version = info.version := by omega
        simpa [open_shard, hc, h1, hv] using hP
    refine ⟨?_, ?_⟩
    · rintro rfl
      exact hfetch (fun p => p = (.error (.OpenShardWithCause info.id), cache)) rfl
    · rintro m rfl
      refine ⟨?_, ?_, ?_⟩
      · intro hlen
        exact hfetch (fun p => p = (.error (.OpenShard info.id), cache)) (by simp [hlen])
      · intro hlen tos hlook
        exact hfetch (fun p => p = (.ok tos, cacheInsert cache tos)) (by simp [hlen, hlook])
      · intro hlen hlook
        exact hfetch (fun p => p = (.error (.OpenShard info.id), cache))
          (by simp [hlen, hlook])

/-- Witness for C9: opening shard 7 at the cached version 3 is a no-op
success even when the meta service is down. -/
theorem open_shard_spec_witness :
    open_shard cache7 (.error ()) ⟨7, 3⟩ = (.ok ⟨⟨7, 3⟩, [1, 2]⟩, cache7) :=
  (open_shard_spec cache7 (.error ()) ⟨7, 3⟩).1 ⟨⟨7, 3⟩, [1, 2]⟩ rfl rfl

end Ceres

namespace Ceres

/-- The rotation step always selects the memtable covering the row's
timestamp: the cached memtable is reused only when it is that one. -/
theorem rotateTo_fst (w : Nat) (wrote : List Nat) (lastMut : Option Nat) :
    (rotateTo w wrote lastMut).1 = w := by
  cases lastMut with
  | none => rfl
  | some w0 =>
    by_cases h : w = w0
    · simp [rotateTo, h]
    · simp [rotateTo, h]

theorem mtPut_entries (store : Nat → MemTable) (W : Nat) (k : KeySequence) (r : Row)
    (w : Nat) :
    ((mtPut store W k r) w).entries =
      (store w).entries ++ (if w = W then [(k, r)] else []) := by
  unfold mtPut
  by_cases h : w = W
  · subst h
    simp
  · simp [h]

theorem mtSetLastSeq_entries (store : Nat → MemTable) (W s w : Nat) :
    ((mtSetLastSeq store W s) w).entries = (store w).entries := by
  unfold mtSetLastSeq
  by_cases h : w = W
  · subst h
    simp
  · simp [h]

theorem foldl_setLast_entries (q : Nat) :
    ∀ (l : List Nat) (store : Nat → MemTable) (w : Nat),
      ((l.foldl (fun st u => mtSetLastSeq st u q) store) w).entries = (store w).entries := by
  intro l
  induction l with
  | nil =>
    intro store w
    rfl
  | cons u rest ih =>
    intro store w
    rw [List.foldl_cons, ih, mtSetLastSeq_entries]

/-- Characterisation of the row loop when every put succeeds: it cannot
fail, and the entries of each window grow by exactly the non-expired rows
routed there, keyed by their position. -/
theorem memWriteLoop_adds (env : WriteEnv) (sequence : Nat)
    (hput : ∀ k r, env.putOk k r = true) :
    ∀ (rows : List Row) (i : Nat) (store : Nat → MemTable) (wrote : List Nat)
      (lastMut : Option Nat),
      (memWriteLoop env sequence rows i store wrote lastMut).1 = none ∧
      ∀ w, ((memWriteLoop env sequence rows i store wrote lastMut).2.1 w).entries
          = (store w).entries ++ addedRows env sequence w i rows := by
  intro rows
  induction rows with
  | nil =>
    intro i store wrote lastMut
    simp [memWriteLoop, addedRows]
  | cons r rest ih =>
    intro i store wrote lastMut
    by_cases hexp : env.expired r.ts = true
    · simp only [memWriteLoop, if_pos hexp]
      obtain ⟨h1, h2⟩ := ih (i + 1) store wrote lastMut
      refine ⟨h1, fun w => ?_⟩
      rw [h2 w]
      simp [addedRows, hexp]
    · have hexp' : env.expired r.ts = false := by
        cases hb : env.expired r.ts
        · rfl
        · exact absurd hb hexp
      simp only [memWriteLoop, if_neg hexp, if_pos (hput _ _), rotateTo_fst]
      obtain ⟨h1, h2⟩ := ih (i + 1)
        (mtPut store (env.windowOf r.ts) ⟨sequence, i % U32⟩ r)
        (rotateTo (env.windowOf r.ts) wrote lastMut).2 (some (env.windowOf r.ts))
      refine ⟨h1, fun w => ?_⟩
      rw [h2 w, mtPut_entries]
      simp only [addedRows, hexp']
      by_cases hww : env.windowOf r.ts = w
      · simp [hww, List.append_assoc]
      · have hww2 : ¬ w = env.windowOf r.ts := fun h => hww h.symm
        simp [hww, hww2]

/-- C6: `MemTableWriter::write(sequence, row_slice, _)` with all puts
succeeding: an empty row slice returns success immediately; rows with
expired timestamps are skipped silently but still consume their positional
index; and every non-expired row at position `i` in the slice is inserted
into the memtable covering its timestamp under key
`KeySequence(sequence, i as u32)`.  Concretely: the call succeeds, and for
every window `w` the entries of `w` afterwards are the entries before
followed by exactly the non-expired rows routed to `w`, each keyed
`(sequence, i mod 2^32)` with `i` the row's position in the slice. -/
theorem mem_table_write_spec (env : WriteEnv) (sequence : Nat) (row_group : List Row)
    (store : Nat → MemTable) (hput : ∀ k r, env.putOk k r = true) :
    (mem_table_write env sequence row_group store).1 = none ∧
    ∀ w, ((mem_table_write env sequence row_group store).2 w).entries
        = (store w).entries ++ addedRows env sequence w 0 row_group := by
  by_cases hrows : row_group.isEmpty = true
  · have hnil : row_group = [] := List.isEmpty_iff.mp hrows
    subst hnil
    simp [mem_table_write, addedRows]
  · obtain ⟨h1, h2⟩ := memWriteLoop_adds env sequence hput row_group 0 store [] none
    rcases hloop : memWriteLoop env sequence row_group 0 store [] none with ⟨o, store', wrote⟩
    rw [hloop] at h1 h2
    simp only at h1
    subst h1
    simp only [mem_table_write, if_neg hrows, hloop]
    refine ⟨by trivial, fun w => ?_⟩
    rw [foldl_setLast_entries]
    exact h2 w

/-- Witness for C6: three rows of which the first is expired; window 0 ends
up with exactly the second row keyed `(9, 1)` — the expired first row
consumed index 0 and touched no memtable. -/
theorem mem_table_write_spec_witness :
    (mem_table_write envWindows 9 rowsExp (fun _ => ⟨[], 0⟩)).1 = none ∧
    ((mem_table_write envWindows 9 rowsExp (fun _ => ⟨[], 0⟩)).2 0).entries =
      [(⟨9, 1⟩, ⟨0, 2⟩)] := by
  obtain ⟨h1, h2⟩ :=
    mem_table_write_spec envWindows 9 rowsExp (fun _ => ⟨[], 0⟩) (fun _ _ => rfl)
  exact ⟨h1, (h2 0).trans (by decide)⟩

end Ceres

namespace Ceres

/-- The row loop can only fail with `WriteMemTable`. -/
theorem memWriteLoop_fst_some (env : WriteEnv) (sequence : Nat) :
    ∀ (rows : List Row) (i : Nat) (store : Nat → MemTable) (wrote : List Nat)
      (lastMut : Option Nat) (e : WriteError),
      (memWriteLoop env sequence rows i store wrote lastMut).1 = some e →
      e = .WriteMemTable := by
  intro rows
  induction rows with
  | nil =>
    intro i store wrote lastMut e h
    simp [memWriteLoop] at h
  | cons r rest ih =>
    intro i store wrote lastMut e h
    simp only [memWriteLoop] at h
    split at h
    · exact ih _ _ _ _ _ h
    · split at h
      · exact ih _ _ _ _ _ h
      · simp only at h
        exact (Option.some.inj h).symm

/-- `MemTableWriter::write` can only fail with `WriteMemTable`. -/
theorem mem_table_write_fst_some (env : WriteEnv) (sequence : Nat) (rows : List Row)
    (store : Nat → MemTable) (e : WriteError)
    (h : (mem_table_write env sequence rows store).1 = some e) : e = .WriteMemTable := by
  unfold mem_table_write at h
  split at h
  · simp at h
  · rcases hloop : memWriteLoop env sequence rows 0 store [] none with ⟨o, store', wrote⟩
    rw [hloop] at h
    cases o with
    | some e2 =>
      have h2 : e2 = e := by simpa using h
      subst h2
      exact memWriteLoop_fst_some env sequence rows 0 store [] none e2 (by rw [hloop])
    | none => simp at h

/-- `Writer::write_table_row_group` can only fail with `WriteLogBatch` or
`WriteMemTable`. -/
theorem write_table_row_group_fst_some (env : WriteEnv) (st : TableState)
    (rows : List Row) (enc : List (List Nat)) (e : WriteError)
    (h : (write_table_row_group env st rows enc).1 = some e) :
    e = .WriteLogBatch ∨ e = .WriteMemTable := by
  unfold write_table_row_group write_to_wal at h
  rcases hw : env.walSeq st.walAttempts with _ | s
  · simp only [hw] at h
    left
    exact (by simpa using h : WriteError.WriteLogBatch = e).symm
  · simp only [hw] at h
    rcases hm : mem_table_write env s rows st.store with ⟨o2, store'⟩
    simp only [hm] at h
    cases o2 with
    | some e2 =>
      right
      have h2 : e2 = e := by simpa using h
      subst h2
      exact mem_table_write_fst_some env s rows st.store e2 (by rw [hm])
    | none => simp at h

/-- The per-batch loop can only fail with `WriteLogBatch` or `WriteMemTable`. -/
theorem writeBatches_fst_some (env : WriteEnv) (rows : List Row) :
    ∀ (l : List (List (List Nat) × (Nat × Nat))) (st : TableState) (e : WriteError),
      (writeBatches env rows l st).1 = some e →
      e = .WriteLogBatch ∨ e = .WriteMemTable := by
  intro l
  induction l with
  | nil =>
    intro st e h
    simp [writeBatches] at h
  | cons b rest ih =>
    intro st e h
    rcases b with ⟨enc, range⟩
    simp only [writeBatches] at h
    rcases hw : write_table_row_group env st (sliceRange rows range.1 range.2) enc
      with ⟨o, st1⟩
    simp only [hw] at h
    cases o with
    | some e0 =>
      have h2 : e0 = e := by simpa using h
      subst h2
      exact write_table_row_group_fst_some env st _ enc e0 (by rw [hw])
    | none => exact ih st1 e h

/-- C5: `Writer::write` fails with `TooManyRows` exactly when the request
holds `MAX_ROWS_TO_WRITE = 10_000_000` rows or more; the bound is a strict
less-than, so a request of 9_999_999 rows passes validation and one of
10_000_000 is rejected. -/
theorem writer_write_TooManyRows_iff (env : WriteEnv) (st : TableState) (rows : List Row) :
    (writer_write env st rows).1 = .failed .TooManyRows ↔
      MAX_ROWS_TO_WRITE ≤ rows.length := by
  constructor
  · intro h
    by_contra hge
    have hval : rows.length < MAX_ROWS_TO_WRITE := by omega
    simp only [writer_write] at h
    rw [if_neg (not_not_intro hval)] at h
    by_cases hd : env.dropped = true
    · rw [if_pos hd] at h
      simp at h
    · rw [if_neg hd] at h
      by_cases hc : env.schemaCompatible = true
      · rw [if_neg (not_not_intro hc)] at h
        rcases hms : maybe_split_write_request env (rows.map env.encodeRow) rows.length
          with _ | sr
        · simp only [hms] at h
          simp at h
        · cases sr with
          | Integrate enc range =>
            simp only [hms] at h
            rcases hw : write_table_row_group env st (sliceRange rows range.1 range.2) enc
              with ⟨o, st1⟩
            simp only [hw] at h
            cases o with
            | some e =>
              have he : e = .TooManyRows := by simpa using h
              rcases write_table_row_group_fst_some env st _ enc e (by rw [hw])
                with h' | h' <;> simp [he] at h'
            | none => simp at h
          | Splitted eb rb =>
            simp only [hms] at h
            rcases hwb : writeBatches env rows (eb.zip rb) st with ⟨o, st1⟩
            simp only [hwb] at h
            cases o with
            | some e =>
              have he : e = .TooManyRows := by simpa using h
              rcases writeBatches_fst_some env rows (eb.zip rb) st e (by rw [hwb])
                with h' | h' <;> simp [he] at h'
            | none => simp at h
      · rw [if_pos hc] at h
        simp at h
  · intro h
    have hnot : ¬ rows.length < MAX_ROWS_TO_WRITE := by omega
    simp [writer_write, hnot]

end Ceres

namespace Ceres

/-- A successful `write_table_row_group` appended its batch to the WAL under
some sequence `s` and set `last_sequence` to `s` — regardless of any gap
between the previous `last_sequence` and `s` (the gap check only warns). -/
theorem write_table_row_group_ok (env : WriteEnv) (st : TableState) (rows : List Row)
    (enc : List (List Nat)) (st' : TableState)
    (h : write_table_row_group env st rows enc = (none, st')) :
    ∃ s, env.walSeq st.walAttempts = some s ∧
      st'.walLog = st.walLog ++ [(s, enc)] ∧ st'.lastSequence = s := by
  unfold write_table_row_group write_to_wal at h
  rcases hw : env.walSeq st.walAttempts with _ | s
  · simp only [hw] at h
    simp at h
  · simp only [hw] at h
    rcases hm : mem_table_write env s rows st.store with ⟨o, store'⟩
    simp only [hm] at h
    cases o with
    | some e => simp at h
    | none =>
      have h2 := congrArg Prod.snd h
      simp only at h2
      refine ⟨s, rfl, ?_, ?_⟩ <;> rw [← h2]

/-- A successful per-batch loop either ran on no batches, or left
`last_sequence` equal to the sequence of its last WAL append. -/
theorem writeBatches_ok (env : WriteEnv) (rows : List Row) :
    ∀ (l : List (List (List Nat) × (Nat × Nat))) (st st' : TableState),
      writeBatches env rows l st = (none, st') →
      (l = [] ∧ st' = st) ∨
        ∃ s enc, st'.walLog.getLast? = some (s, enc) ∧ st'.lastSequence = s := by
  intro l
  induction l with
  | nil =>
    intro st st' h
    left
    refine ⟨rfl, ?_⟩
    have := congrArg Prod.snd h
    simpa using this.symm
  | cons b rest ih =>
    intro st st' h
    rcases b with ⟨enc, range⟩
    simp only [writeBatches] at h
    rcases hw : write_table_row_group env st (sliceRange rows range.1 range.2) enc
      with ⟨o, st1⟩
    simp only [hw] at h
    cases o with
    | some e => simp at h
    | none =>
      right
      obtain ⟨s, -, hlog, hlast⟩ := write_table_row_group_ok env st _ enc st1 hw
      rcases ih st1 st' h with ⟨-, rfl⟩ | hprop
      · exact ⟨s, enc, by rw [hlog]; exact List.getLast?_concat _, hlast⟩
      · exact hprop

/-- The distribution loop returns as many batches as it was given. -/
theorem distributeAux_length (ends : List Nat) :
    ∀ (rows : List (List Nat)) (idx cbi : Nat) (batches out : List (List (List Nat))),
      distributeAux ends rows idx cbi batches = some out → out.length = batches.length := by
  intro rows
  induction rows with
  | nil =>
    intro idx cbi batches out h
    simp only [distributeAux] at h
    rw [← Option.some.inj h]
  | cons r rest ih =>
    intro idx cbi batches out h
    simp only [distributeAux] at h
    rcases he : ends.get? cbi with _ | e
    · rw [he] at h
      simp at h
    · rw [he] at h
      simp only at h
      rcases hb : batches.get? (if idx ≥ e then cbi + 1 else cbi) with _ | b
      · rw [hb] at h
        simp at h
      · rw [hb] at h
        simp only at h
        have := ih (idx + 1) _ _ out h
        rw [this, List.length_set]

theorem buildRanges_length : ∀ (prev : Nat) (es : List Nat),
    (buildRanges prev es).length = es.length := by
  intro prev es
  induction es generalizing prev with
  | nil => rfl
  | cons e es ih => simp [buildRanges, ih]

/-- A `Splitted` result always carries at least two batches, and as many
slicer ranges as encoded batches. -/
theorem maybe_split_Splitted (env : WriteEnv) (enc : List (List Nat)) (n : Nat)
    (eb : List (List (List Nat))) (rb : List (Nat × Nat))
    (h : maybe_split_write_request env enc n = some (.Splitted eb rb)) :
    2 ≤ eb.length ∧ rb.length = eb.length := by
  unfold maybe_split_write_request at h
  rcases hmb : env.maxBytesPerWriteBatch with _ | maxB
  · rw [hmb] at h
    simp at h
  · rw [hmb] at h
    simp only [split] at h
    by_cases hlen : (compute_batches maxB enc).length ≤ 1
    · rw [if_pos hlen] at h
      simp at h
    · rw [if_neg hlen] at h
      rcases hd : distributeAux (compute_batches maxB enc) enc 0 0
          (List.replicate (compute_batches maxB enc).length []) with _ | out
      · rw [hd] at h
        simp at h
      · rw [hd] at h
        obtain ⟨heb, hrb⟩ : out = eb ∧ buildRanges 0 (compute_batches maxB enc) = rb := by
          simpa using h
        subst heb
        subst hrb
        have hlenout := distributeAux_length _ enc 0 0 _ out hd
        rw [List.length_replicate] at hlenout
        constructor
        · omega
        · rw [buildRanges_length, ← hlenout]

/-- C7: after any successful `Writer::write`, `table.last_sequence` equals
(hence is ≥) the sequence returned by the last WAL append of the call.  The
statement holds for every WAL oracle, in particular when a batch's assigned
sequence is not `last_sequence + 1`: the sequence-gap check only warns and
`set_last_sequence(sequence)` is executed unconditionally. -/
theorem writer_write_ok_lastSequence (env : WriteEnv) (st : TableState) (rows : List Row)
    (n : Nat) (st' : TableState) (h : writer_write env st rows = (.ok n, st')) :
    ∃ s enc, st'.walLog.getLast? = some (s, enc) ∧ st'.lastSequence = s := by
  simp only [writer_write] at h
  by_cases hval : rows.length < MAX_ROWS_TO_WRITE
  · rw [if_neg (not_not_intro hval)] at h
    by_cases hd : env.dropped = true
    · rw [if_pos hd] at h
      simp at h
    · rw [if_neg hd] at h
      by_cases hc : env.schemaCompatible = true
      · rw [if_neg (not_not_intro hc)] at h
        rcases hms : maybe_split_write_request env (rows.map env.encodeRow) rows.length
          with _ | sr
        · simp only [hms] at h
          simp at h
        · cases sr with
          | Integrate enc range =>
            simp only [hms] at h
            rcases hw : write_table_row_group env st (sliceRange rows range.1 range.2) enc
              with ⟨o, st1⟩
            simp only [hw] at h
            cases o with
            | some e => simp at h
            | none =>
              obtain ⟨-, hst⟩ : rows.length = n ∧ st1 = st' := by simpa using h
              subst hst
              obtain ⟨s, -, hlog, hlast⟩ := write_table_row_group_ok env st _ enc st1 hw
              exact ⟨s, enc, by rw [hlog]; exact List.getLast?_concat _, hlast⟩
          | Splitted eb rb =>
            simp only [hms] at h
            rcases hwb : writeBatches env rows (eb.zip rb) st with ⟨o, st1⟩
            simp only [hwb] at h
            cases o with
            | some e => simp at h
            | none =>
              obtain ⟨-, hst⟩ : rows.length = n ∧ st1 = st' := by simpa using h
              subst hst
              rcases writeBatches_ok env rows (eb.zip rb) st st1 hwb with ⟨hnil, -⟩ | hprop
              · obtain ⟨hle, hrbl⟩ :=
                  maybe_split_Splitted env (rows.map env.encodeRow) rows.length eb rb hms
                have hzl : (eb.zip rb).length = 0 := by rw [hnil]; rfl
                rw [List.length_zip, hrbl, Nat.min_self] at hzl
                omega
              · exact hprop
      · rw [if_pos hc] at h
        simp at h
  · rw [if_pos hval] at h
    simp at h

/-- Witness for C7: a successful 3-row write through `envOk`, whose WAL
assigns sequence 5 to the first append (a gap over `last_sequence = 0`). -/
theorem writer_write_ok_lastSequence_witness :
    ∃ s enc, (writer_write envOk emptyState rows3).2.walLog.getLast? = some (s, enc) ∧
      (writer_write envOk emptyState rows3).2.lastSequence = s :=
  writer_write_ok_lastSequence envOk emptyState rows3 3
    (writer_write envOk emptyState rows3).2 (by rfl)

end Ceres

namespace Ceres

/-- The row loop only ever appends to a window's entries. -/
theorem memWriteLoop_store_prefix (env : WriteEnv) (sequence : Nat) :
    ∀ (rows : List Row) (i : Nat) (store : Nat → MemTable) (wrote : List Nat)
      (lastMut : Option Nat) (w : Nat),
      (store w).entries <+:
        ((memWriteLoop env sequence rows i store wrote lastMut).2.1 w).entries := by
  intro rows
  induction rows with
  | nil =>
    intro i store wrote lastMut w
    exact List.prefix_refl _
  | cons r rest ih =>
    intro i store wrote lastMut w
    simp only [memWriteLoop]
    split
    · exact ih _ _ _ _ _
    · split
      · refine List.IsPrefix.trans ?_ (ih _ _ _ _ _)
        rw [mtPut_entries]
        exact List.prefix_append _ _
      · exact List.prefix_refl _

/-- `MemTableWriter::write` only ever appends to a window's entries, also
when it fails part-way: there is no rollback of earlier inserts. -/
theorem mem_table_write_store_prefix (env : WriteEnv) (q : Nat) (rows : List Row)
    (store : Nat → MemTable) (w : Nat) :
    (store w).entries <+: ((mem_table_write env q rows store).2 w).entries := by
  unfold mem_table_write
  split
  · exact List.prefix_refl _
  · have hp := memWriteLoop_store_prefix env q rows 0 store [] none w
    rcases hloop : memWriteLoop env q rows 0 store [] none with ⟨o, store', wrote⟩
    rw [hloop] at hp
    cases o with
    | some e => simpa using hp
    | none => simpa [foldl_setLast_entries] using hp

/-- A failing `write_table_row_group` keeps everything the state already
held: the WAL log is only appended to, every window's entries are only
appended to, and `last_sequence` is untouched. -/
theorem write_table_row_group_fail_state (env : WriteEnv) (st : TableState)
    (rows : List Row) (enc : List (List Nat)) (e : WriteError) (stF : TableState)
    (h : write_table_row_group env st rows enc = (some e, stF)) :
    st.walLog <+: stF.walLog ∧
    (∀ w, (st.store w).entries <+: (stF.store w).entries) ∧
    stF.lastSequence = st.lastSequence := by
  unfold write_table_row_group write_to_wal at h
  rcases hw : env.walSeq st.walAttempts with _ | s
  · simp only [hw] at h
    have h2 := congrArg Prod.snd h
    simp only at h2
    rw [← h2]
    exact ⟨List.prefix_refl _, fun w => List.prefix_refl _, rfl⟩
  · simp only [hw] at h
    rcases hm : mem_table_write env s rows st.store with ⟨o, store'⟩
    simp only [hm] at h
    cases o with
    | some e2 =>
      have h2 := congrArg Prod.snd h
      simp only at h2
      rw [← h2]
      refine ⟨List.prefix_append _ _, fun w => ?_, rfl⟩
      have hp := mem_table_write_store_prefix env s rows st.store w
      rw [hm] at hp
      simpa using hp
    | none => simp at h

/-- Decomposing the per-batch loop over an append. -/
theorem writeBatches_append (env : WriteEnv) (rows : List Row) :
    ∀ (l1 l2 : List (List (List Nat) × (Nat × Nat))) (st : TableState),
      writeBatches env rows (l1 ++ l2) st =
        match writeBatches env rows l1 st with
        | (some e, st1) => (some e, st1)
        | (none, st1) => writeBatches env rows l2 st1 := by
  intro l1
  induction l1 with
  | nil =>
    intro l2 st
    simp [writeBatches]
  | cons b rest ih =>
    intro l2 st
    rcases b with ⟨enc, range⟩
    simp only [List.cons_append, writeBatches]
    rcases hw : write_table_row_group env st (sliceRange rows range.1 range.2) enc
      with ⟨o, st1⟩
    cases o with
    | some e => simp
    | none => simp [ih]

/-- C10: `Writer::write` is not atomic across batches.  If the request is
split, the first `k` batches succeed (state `stK`), and the WAL append or
memtable install of batch `k` fails with `e`, then `write` returns `e` while
every earlier batch stays fully applied: the final state is the failing
batch's partial state on top of `stK`, `stK`'s WAL log and installed
memtable entries are retained (prefixes of the final ones), `last_sequence`
is not rolled back but stays at the sequence of batch `k-1` (the last entry
of `stK`'s WAL log). -/
theorem writer_write_not_atomic (env : WriteEnv) (st : TableState) (rows : List Row)
    (eb : List (List (List Nat))) (rb : List (Nat × Nat)) (k : Nat)
    (encK : List (List Nat)) (ak bk : Nat) (e : WriteError) (stK stF : TableState)
    (hlen : rows.length < MAX_ROWS_TO_WRITE)
    (hdropped : env.dropped = false) (hcompat : env.schemaCompatible = true)
    (hsplit : maybe_split_write_request env (rows.map env.encodeRow) rows.length
      = some (.Splitted eb rb))
    (hget : (eb.zip rb).get? k = some (encK, (ak, bk)))
    (hpre : writeBatches env rows ((eb.zip rb).take k) st = (none, stK))
    (hfail : write_table_row_group env stK (sliceRange rows ak bk) encK = (some e, stF)) :
    writer_write env st rows = (.failed e, stF) ∧
    stK.walLog <+: stF.walLog ∧
    (∀ w, (stK.store w).entries <+: (stF.store w).entries) ∧
    stF.lastSequence = stK.lastSequence ∧
    (0 < k → ∃ s enc, stK.walLog.getLast? = some (s, enc) ∧ stK.lastSequence = s) := by
  obtain ⟨hA, hB, hC⟩ :=
    write_table_row_group_fail_state env stK (sliceRange rows ak bk) encK e stF hfail
  have hk : k < (eb.zip rb).length := (List.get?_eq_some.mp hget).choose
  have hdk : (eb.zip rb).drop k = (encK, (ak, bk)) :: (eb.zip rb).drop (k + 1) := by
    obtain ⟨hlt, hgetEq⟩ := List.get?_eq_some.mp hget
    rw [List.drop_eq_getElem_cons hlt]
    simp [← hgetEq]
  have hfull : writeBatches env rows (eb.zip rb) st = (some e, stF) := by
    conv_lhs => rw [← List.take_append_drop k (eb.zip rb)]
    rw [writeBatches_append, hpre, hdk]
    simp only [writeBatches, hfail]
  refine ⟨?_, hA, hB, hC, ?_⟩
  · simp only [writer_write]
    rw [if_neg (not_not_intro hlen), if_neg (by simp [hdropped]),
      if_neg (not_not_intro hcompat)]
    simp only [hsplit, hfull]
  · intro hk0
    rcases writeBatches_ok env rows ((eb.zip rb).take k) st stK hpre with ⟨htake, -⟩ | hprop
    · have hlt : ((eb.zip rb).take k).length = k := by
        rw [List.length_take]
        omega
      rw [htake] at hlt
      simp at hlt
      omega
    · exact hprop

/-- Witness for C10: a 3-row request split into three one-byte batches under
`envWalFail`; batch 0 succeeds with sequence 10, the WAL append of batch 1
fails, and the final state keeps batch 0's WAL entry and
`last_sequence = 10`. -/
theorem writer_write_not_atomic_witness :
    (writer_write envWalFail emptyState rows3).1 = .failed .WriteLogBatch ∧
    (writer_write envWalFail emptyState rows3).2.walLog = [(10, [[1]])] ∧
    (writer_write envWalFail emptyState rows3).2.lastSequence = 10 := by
  have H := writer_write_not_atomic envWalFail emptyState rows3
    [[[1]], [[2]], [[3]]] [(0, 1), (1, 2), (2, 3)] 1 [[2]] 1 2 .WriteLogBatch
    (writeBatches envWalFail rows3
      (([[[1]], [[2]], [[3]]].zip [(0, 1), (1, 2), (2, 3)]).take 1) emptyState).2
    (write_table_row_group envWalFail
      (writeBatches envWalFail rows3
        (([[[1]], [[2]], [[3]]].zip [(0, 1), (1, 2), (2, 3)]).take 1) emptyState).2
      (sliceRange rows3 1 2) [[2]]).2
    (by decide) rfl rfl (by decide) (by decide) rfl rfl
  refine ⟨?_, ?_, ?_⟩ <;> rw [H.1] <;> rfl
